import Mathlib

/-!
Verification of the tmdb-proxy cache-and-coalescing request manager.

The JavaScript source (src/api/tmdb.js, both RequestManager variants, and the
standalone cache module src/unnamed/part_000) is shallowly embedded here:

* a JavaScript `Map` with string keys is an association list in insertion
  order (head = first-inserted / oldest binding), with `Map.get`, `Map.set`,
  `Map.delete`, `Map.has`, `Map.size` and `Map.keys().next().value` modelled
  by `mapGet`, `mapSet`, `mapDelete`, `mapHas`, `mapSize`, `firstKey`;
  `Map.set` on an existing key updates the value in place and keeps the
  key's position, on a new key it appends at the end;
* JavaScript values relevant to truthiness tests are modelled by `JsValue`;
* `Date.now()` is an explicit `now : Nat` parameter (milliseconds);
* the single-threaded cooperative scheduler is modelled by making each
  synchronous run-to-first-suspension segment one atomic step:
  `RequestManager.fetch` up to returning a promise is `RequestManager.fetch`
  (it contains no `await` before registering the pending promise), and the
  settlement cascade (`.then` writing the cache, `.finally` deleting the
  pending entry) is `settle`.
-/

/-- A JavaScript `Map` with string keys: association list in insertion order. -/
abbrev JsMap (α : Type) := List (String × α)

/-- Models `Map.get`: value of the first binding for the key, if any. -/
def mapGet {α : Type} : JsMap α → String → Option α
  | [], _ => none
  | (k', v) :: rest, k => if k' = k then some v else mapGet rest k

/-- Models `Map.has`. -/
def mapHas {α : Type} (m : JsMap α) (k : String) : Bool :=
  (mapGet m k).isSome

/-- Models `Map.delete`: removes the binding for the key. -/
def mapDelete {α : Type} : JsMap α → String → JsMap α
  | [], _ => []
  | (k', v) :: rest, k => if k' = k then rest else (k', v) :: mapDelete rest k

/-- Models `Map.set`: an existing key keeps its position and gets the new
value; a new key is appended at the end (most-recent position). -/
def mapSet {α : Type} : JsMap α → String → α → JsMap α
  | [], k, v => [(k, v)]
  | (k', v') :: rest, k, v =>
      if k' = k then (k, v) :: rest else (k', v') :: mapSet rest k v

/-- Models `Map.size`. -/
def mapSize {α : Type} (m : JsMap α) : Nat := m.length

/-- Models `map.keys().next().value`: the first-inserted (oldest) key. -/
def firstKey {α : Type} (m : JsMap α) : Option String :=
  m.head?.map Prod.fst

/-- The keys of the map in insertion (= recency) order. -/
def keysOf {α : Type} (m : JsMap α) : List String := m.map Prod.fst

/-- The most-recently inserted key. -/
def lastKey {α : Type} (m : JsMap α) : Option String :=
  m.getLast?.map Prod.fst

/-- Well-formedness of a `JsMap`: each key has at most one binding. -/
def nodupKeys {α : Type} (m : JsMap α) : Prop := (keysOf m).Nodup

instance {α : Type} (m : JsMap α) : Decidable (nodupKeys m) := by
  unfold nodupKeys; infer_instance

/-- JavaScript values, as far as the cache's truthiness tests distinguish
them. `vObj` stands for any object (always truthy), tagged by an id. -/
inductive JsValue : Type
  | vNull : JsValue
  | vBool : Bool → JsValue
  | vNum : Int → JsValue
  | vStr : String → JsValue
  | vObj : Nat → JsValue
deriving DecidableEq, Repr

/-- JavaScript truthiness of a `JsValue`. -/
def truthy : JsValue → Bool
  | .vNull => false
  | .vBool b => b
  | .vNum n => n != 0
  | .vStr s => s != ""
  | .vObj _ => true

/-- The value `_getFromDataCache` hands to `if (cached)`: `null` on a miss. -/
def jsOfOption : Option JsValue → JsValue
  | none => .vNull
  | some v => v

/-- A cache entry `{ data, expiry }` as stored by `_setToDataCache`. -/
structure CacheEntry : Type where
  data : JsValue
  expiry : Nat
deriving DecidableEq, Repr

/-- Source constant `CACHE_DURATION = 10 * 60 * 1000`. -/
def CACHE_DURATION : Nat := 10 * 60 * 1000

/-- Source constant `MAX_CACHE_SIZE = 1000`. -/
def MAX_CACHE_SIZE : Nat := 1000

/-- Models `RequestManager._getFromDataCache` (identical in both
RequestManager variants, and identical to `getCache` in the standalone cache
module): look the key up; absent gives `null`; an entry with
`Date.now() > item.expiry` is deleted and gives `null`; otherwise the entry
is deleted and re-inserted (LRU refresh) and its `data` is returned.
Returns the returned value together with the mutated cache. -/
def _getFromDataCache (now : Nat) (cache : JsMap CacheEntry) (key : String) :
    Option JsValue × JsMap CacheEntry :=
  match mapGet cache key with
  | none => (none, cache)
  | some item =>
      if now > item.expiry then
        (none, mapDelete cache key)
      else
        (some item.data, mapSet (mapDelete cache key) key item)

/-- Models `RequestManager._setToDataCache`: if `size >= maxSize`, delete the
first-inserted key; then `Map.set` the new entry with
`expiry = Date.now() + duration`. The first variant hard-codes
`maxSize = MAX_CACHE_SIZE` and `duration = CACHE_DURATION`; the second
variant takes them from `options.maxSize` / `options.duration` with the same
defaults, so they are parameters here. Note there is no `has`-check: setting
an existing key still evicts the oldest entry when at capacity, and
`Map.set` keeps the existing key's position. -/
def _setToDataCache (now maxSize duration : Nat) (cache : JsMap CacheEntry)
    (key : String) (data : JsValue) : JsMap CacheEntry :=
  let cache1 :=
    if maxSize ≤ mapSize cache then
      match firstKey cache with
      | some oldestKey => mapDelete cache oldestKey
      | none => cache
    else cache
  mapSet cache1 key ⟨data, now + duration⟩

/-- Models `setCache` from the standalone cache module (src/unnamed/part_000):
if the key exists it is deleted first (moving it to the end on re-insert),
then if `size >= maxSize` the oldest key is deleted, then the entry is set
with `expiry = Date.now() + duration`. The source hard-codes
`maxSize = MAX_CACHE_SIZE` and `duration = CACHE_DURATION`; they are
parameters here. -/
def setCache (now maxSize duration : Nat) (cache : JsMap CacheEntry)
    (key : String) (data : JsValue) : JsMap CacheEntry :=
  let cache0 := if mapHas cache key then mapDelete cache key else cache
  let cache1 :=
    if maxSize ≤ mapSize cache0 then
      match firstKey cache0 with
      | some oldestKey => mapDelete cache0 oldestKey
      | none => cache0
    else cache0
  mapSet cache1 key ⟨data, now + duration⟩

/-- The state of a `RequestManager`: `dataCache` and `pendingRequests`
(the latter maps a key to the id of the shared in-flight promise). -/
structure RMState : Type where
  dataCache : JsMap CacheEntry
  pendingRequests : JsMap Nat
deriving DecidableEq, Repr

/-- What a call to `RequestManager.fetch` returns: a cached value (fast
path), the promise id of an already-pending request it joined, or the
promise id of the producer invocation it started. -/
inductive FetchOutcome : Type
  | hit : JsValue → FetchOutcome
  | joined : Nat → FetchOutcome
  | started : Nat → FetchOutcome
deriving DecidableEq, Repr

/-- Models the synchronous part of `RequestManager.fetch` (both variants):
(A) read the cache via `_getFromDataCache`, return `cached` if truthy;
(B) if `pendingRequests.has(key)`, return the pending promise;
(C) invoke the producer, build the settled-handling promise and
`pendingRequests.set(key, promise)` before returning. All of this runs
without a suspension point, so it is one atomic step of the cooperative
scheduler; `freshPid` is the id of the newly created promise. -/
def RequestManager.fetch (now : Nat) (s : RMState) (key : String)
    (freshPid : Nat) : RMState × FetchOutcome :=
  let lookup := _getFromDataCache now s.dataCache key
  let cached := jsOfOption lookup.1
  let s1 : RMState := { s with dataCache := lookup.2 }
  if truthy cached then (s1, .hit cached)
  else
    match mapGet s1.pendingRequests key with
    | some pid => (s1, .joined pid)
    | none =>
        ({ s1 with pendingRequests := mapSet s1.pendingRequests key freshPid },
         .started freshPid)

/-- How the producer's promise settles. -/
inductive Outcome : Type
  | success : JsValue → Outcome
  | failure : String → Outcome
deriving DecidableEq, Repr

/-- Models the settlement cascade of the promise built in
`RequestManager.fetch`: on success the `.then` callback stores the data via
`_setToDataCache`, on failure nothing is written (the second variant's
`.catch` just rethrows); in both cases the `.finally` callback deletes the
key from `pendingRequests`. -/
def settle (now maxSize duration : Nat) (s : RMState) (key : String)
    (out : Outcome) : RMState :=
  match out with
  | .success v =>
      { dataCache := _setToDataCache now maxSize duration s.dataCache key v,
        pendingRequests := mapDelete s.pendingRequests key }
  | .failure _ =>
      { dataCache := s.dataCache,
        pendingRequests := mapDelete s.pendingRequests key }

/-- The outcome a caller of `fetch` eventually observes, given how each
promise id resolves: a cache hit is an immediate success; a caller that
joined or started promise `pid` observes that promise's settlement. -/
def callerOutcome (resolve : Nat → Outcome) : FetchOutcome → Outcome
  | .hit v => .success v
  | .joined pid => resolve pid
  | .started pid => resolve pid

/-- Whether a fetch outcome is a producer invocation. -/
def isStarted : FetchOutcome → Bool
  | .started _ => true
  | _ => false

/-- Sequential insertion of a list of keys (with a dummy stored value) via
`_setToDataCache`, with no reads in between. -/
def insertAll (now maxSize duration : Nat) (ks : List String)
    (cache : JsMap CacheEntry) : JsMap CacheEntry :=
  ks.foldl (fun c k => _setToDataCache now maxSize duration c k (.vNum 0)) cache

/-! Basic lemmas about the `JsMap` operations. -/

@[simp]
theorem mapGet_nil {α : Type} (k : String) : mapGet ([] : JsMap α) k = none := rfl

@[simp]
theorem mapGet_mapSet_self {α : Type} (m : JsMap α) (k : String) (v : α) :
    mapGet (mapSet m k v) k = some v := by
  induction m with
  | nil => simp [mapSet, mapGet]
  | cons p rest ih =>
      obtain ⟨k', v'⟩ := p
      by_cases h : k' = k
      · simp [mapSet, mapGet, h]
      · simp [mapSet, mapGet, h, ih]

@[simp]
theorem mapGet_mapSet_ne {α : Type} (m : JsMap α) (k k' : String) (v : α)
    (h : k' ≠ k) : mapGet (mapSet m k v) k' = mapGet m k' := by
  have hk : ¬(k = k') := fun hh => h hh.symm
  induction m with
  | nil => simp [mapSet, mapGet, hk]
  | cons p rest ih =>
      obtain ⟨k0, v0⟩ := p
      by_cases h0 : k0 = k
      · subst h0
        simp [mapSet, mapGet, hk]
      · simp [mapSet, mapGet, h0, ih]

@[simp]
theorem mapGet_mapDelete_ne {α : Type} (m : JsMap α) (k k' : String)
    (h : k' ≠ k) : mapGet (mapDelete m k) k' = mapGet m k' := by
  have hk : ¬(k = k') := fun hh => h hh.symm
  induction m with
  | nil => simp [mapDelete]
  | cons p rest ih =>
      obtain ⟨k0, v0⟩ := p
      by_cases h0 : k0 = k
      · subst h0
        simp [mapDelete, mapGet, hk]
      · simp [mapDelete, mapGet, h0, ih]

theorem mapGet_eq_none_of_not_mem {α : Type} (m : JsMap α) (k : String)
    (h : k ∉ keysOf m) : mapGet m k = none := by
  induction m with
  | nil => rfl
  | cons p rest ih =>
      obtain ⟨k0, v0⟩ := p
      simp only [keysOf, List.map_cons, List.mem_cons, not_or] at h
      have h0 : ¬(k0 = k) := fun hh => h.1 hh.symm
      simp only [mapGet, h0, if_false]
      exact ih (by simpa [keysOf] using h.2)

theorem not_mem_of_mapGet_eq_none {α : Type} (m : JsMap α) (k : String)
    (h : mapGet m k = none) : k ∉ keysOf m := by
  induction m with
  | nil => simp [keysOf]
  | cons p rest ih =>
      obtain ⟨k0, v0⟩ := p
      by_cases h0 : k0 = k
      · simp [mapGet, h0] at h
      · simp only [mapGet, h0, if_false] at h
        have hrest := ih h
        simp only [keysOf, List.map_cons, List.mem_cons, not_or]
        exact ⟨fun hh => h0 hh.symm, by simpa [keysOf] using hrest⟩

theorem mapGet_mapDelete_self {α : Type} (m : JsMap α) (k : String)
    (hnd : nodupKeys m) : mapGet (mapDelete m k) k = none := by
  induction m with
  | nil => rfl
  | cons p rest ih =>
      obtain ⟨k0, v0⟩ := p
      simp only [nodupKeys, keysOf, List.map_cons, List.nodup_cons] at hnd
      by_cases h0 : k0 = k
      · subst h0
        simp only [mapDelete, if_pos rfl]
        exact mapGet_eq_none_of_not_mem rest k0 (by simpa [keysOf] using hnd.1)
      · simp [mapDelete, mapGet, h0, ih hnd.2]

theorem mapSet_of_absent {α : Type} (m : JsMap α) (k : String) (v : α)
    (h : mapGet m k = none) : mapSet m k v = m ++ [(k, v)] := by
  induction m with
  | nil => rfl
  | cons p rest ih =>
      obtain ⟨k0, v0⟩ := p
      by_cases h0 : k0 = k
      · simp [mapGet, h0] at h
      · simp only [mapGet, h0, if_false] at h
        simp [mapSet, h0, ih h]

theorem keysOf_mapSet_absent {α : Type} (m : JsMap α) (k : String) (v : α)
    (h : mapGet m k = none) : keysOf (mapSet m k v) = keysOf m ++ [k] := by
  rw [mapSet_of_absent m k v h]
  simp [keysOf]

theorem keysOf_mapSet_present {α : Type} (m : JsMap α) (k : String) (v : α)
    (h : mapHas m k = true) : keysOf (mapSet m k v) = keysOf m := by
  induction m with
  | nil => simp [mapHas, mapGet] at h
  | cons p rest ih =>
      obtain ⟨k0, v0⟩ := p
      by_cases h0 : k0 = k
      · simp [mapSet, keysOf, h0]
      · simp only [mapHas, mapGet, h0, if_false] at h
        simp [mapSet, keysOf, h0]
        simpa [keysOf] using ih h

theorem mapDelete_sublist {α : Type} (m : JsMap α) (k : String) :
    List.Sublist (mapDelete m k) m := by
  induction m with
  | nil => simp [mapDelete]
  | cons p rest ih =>
      obtain ⟨k0, v0⟩ := p
      by_cases h0 : k0 = k
      · simp only [mapDelete, h0, if_pos rfl]
        exact List.sublist_cons_self _ _
      · simp only [mapDelete, h0, if_false]
        exact List.Sublist.cons₂ (k0, v0) ih

theorem nodupKeys_mapDelete {α : Type} (m : JsMap α) (k : String)
    (h : nodupKeys m) : nodupKeys (mapDelete m k) :=
  List.Nodup.sublist (List.Sublist.map Prod.fst (mapDelete_sublist m k)) h

theorem nodupKeys_mapSet {α : Type} (m : JsMap α) (k : String) (v : α)
    (h : nodupKeys m) : nodupKeys (mapSet m k v) := by
  by_cases hk : mapHas m k = true
  · unfold nodupKeys
    rw [keysOf_mapSet_present m k v hk]
    exact h
  · have hnone : mapGet m k = none := by
      simpa [mapHas] using hk
    unfold nodupKeys
    rw [keysOf_mapSet_absent m k v hnone]
    rw [List.nodup_append]
    refine ⟨h, List.nodup_singleton k, ?_⟩
    intro a ha hb
    rw [List.mem_singleton] at hb
    subst hb
    exact not_mem_of_mapGet_eq_none m a hnone ha

theorem mapSize_mapDelete_of_has {α : Type} (m : JsMap α) (k : String)
    (h : mapHas m k = true) : mapSize (mapDelete m k) + 1 = mapSize m := by
  induction m with
  | nil => simp [mapHas, mapGet] at h
  | cons p rest ih =>
      obtain ⟨k0, v0⟩ := p
      by_cases h0 : k0 = k
      · simp [mapDelete, h0, mapSize]
      · have h' : mapHas rest k = true := by
          simpa [mapHas, mapGet, h0] using h
        have ihh := ih h'
        simp only [mapDelete, h0, if_false, mapSize, List.length_cons] at ihh ⊢
        omega

theorem mapSize_mapSet_le {α : Type} (m : JsMap α) (k : String) (v : α) :
    mapSize (mapSet m k v) ≤ mapSize m + 1 := by
  induction m with
  | nil => simp [mapSet, mapSize]
  | cons p rest ih =>
      obtain ⟨k0, v0⟩ := p
      by_cases h0 : k0 = k
      · simp [mapSet, h0, mapSize]
      · simp only [mapSet, h0, if_false, mapSize, List.length_cons]
        exact Nat.succ_le_succ ih

@[simp]
theorem mapDelete_cons_head {α : Type} (k0 : String) (v0 : α) (rest : JsMap α) :
    mapDelete ((k0, v0) :: rest) k0 = rest := by
  simp [mapDelete]

example : mapSet [("a", 1), ("b", 2)] "a" 7 = [("a", 7), ("b", 2)] := by decide
example : mapSet [("a", 1)] "b" 2 = [("a", 1), ("b", 2)] := by decide
example : mapDelete [("a", 1), ("b", 2)] "a" = [("b", 2)] := by decide
example :
    _setToDataCache 0 2 1000 [("a", ⟨.vNum 1, 99⟩), ("b", ⟨.vNum 1, 99⟩)]
      "b" (.vNum 2) = [("b", ⟨.vNum 2, 1000⟩)] := by decide

/-! Characterizations of `_getFromDataCache` and `RequestManager.fetch`. -/

theorem getFromDataCache_absent (now : Nat) (cache : JsMap CacheEntry)
    (key : String) (h : mapGet cache key = none) :
    _getFromDataCache now cache key = (none, cache) := by
  simp [_getFromDataCache, h]

theorem fetch_miss_fresh (now : Nat) (s : RMState) (key : String) (p : Nat)
    (hc : mapGet s.dataCache key = none)
    (hp : mapGet s.pendingRequests key = none) :
    RequestManager.fetch now s key p =
      ({ dataCache := s.dataCache,
         pendingRequests := mapSet s.pendingRequests key p }, .started p) := by
  unfold RequestManager.fetch
  rw [getFromDataCache_absent now s.dataCache key hc]
  simp [jsOfOption, truthy, hp]

theorem fetch_miss_joined (now : Nat) (s : RMState) (key : String) (p pid : Nat)
    (hc : mapGet s.dataCache key = none)
    (hp : mapGet s.pendingRequests key = some pid) :
    RequestManager.fetch now s key p = (s, .joined pid) := by
  unfold RequestManager.fetch
  rw [getFromDataCache_absent now s.dataCache key hc]
  simp [jsOfOption, truthy, hp]

theorem fetch_hit (now : Nat) (s : RMState) (key : String) (p : Nat)
    (item : CacheEntry) (hc : mapGet s.dataCache key = some item)
    (hexp : ¬now > item.expiry) (ht : truthy item.data = true) :
    RequestManager.fetch now s key p =
      ({ s with dataCache := mapSet (mapDelete s.dataCache key) key item },
       .hit item.data) := by
  unfold RequestManager.fetch
  simp [_getFromDataCache, hc, hexp, jsOfOption, ht]

theorem fetch_pending_char (now : Nat) (s : RMState) (key : String) (p : Nat) :
    ((RequestManager.fetch now s key p).1.pendingRequests = s.pendingRequests ∧
      (RequestManager.fetch now s key p).2 ≠ .started p) ∨
    ((RequestManager.fetch now s key p).1.pendingRequests
        = mapSet s.pendingRequests key p ∧
      mapGet s.pendingRequests key = none ∧
      (RequestManager.fetch now s key p).2 = .started p) := by
  unfold RequestManager.fetch
  by_cases ht :
      truthy (jsOfOption (_getFromDataCache now s.dataCache key).1) = true
  · left
    simp [ht]
  · cases hg : mapGet s.pendingRequests key with
    | some pid =>
        left
        simp [ht, hg]
    | none =>
        right
        simp [ht, hg]

theorem fetch_dataCache_eq_of_absent (now : Nat) (s : RMState) (key : String)
    (p : Nat) (hc : mapGet s.dataCache key = none) :
    (RequestManager.fetch now s key p).1.dataCache = s.dataCache := by
  unfold RequestManager.fetch
  rw [getFromDataCache_absent now s.dataCache key hc]
  simp [jsOfOption, truthy]
  cases mapGet s.pendingRequests key <;> simp

/-- C1: in a cache-miss wave, two concurrent `RequestManager.fetch` calls
with the same key (no cached entry, nothing in flight) perform exactly one
producer invocation: the first call starts promise `p1`, the second call
joins that same promise `p1` instead of starting `p2`, and under any
resolution of the promises both callers observe the identical outcome — in
particular the identical resolved value. -/
theorem fetch_coalesces_wave (now1 now2 : Nat) (s : RMState) (key : String)
    (p1 p2 : Nat) (hc : mapGet s.dataCache key = none)
    (hp : mapGet s.pendingRequests key = none) :
    (RequestManager.fetch now1 s key p1).2 = .started p1 ∧
    (RequestManager.fetch now2 (RequestManager.fetch now1 s key p1).1 key
        p2).2 = .joined p1 ∧
    List.countP isStarted
      [(RequestManager.fetch now1 s key p1).2,
       (RequestManager.fetch now2 (RequestManager.fetch now1 s key p1).1 key
          p2).2] = 1 ∧
    ∀ resolve : Nat → Outcome,
      callerOutcome resolve (RequestManager.fetch now1 s key p1).2 =
        callerOutcome resolve
          (RequestManager.fetch now2 (RequestManager.fetch now1 s key p1).1
            key p2).2 := by
  have h1 := fetch_miss_fresh now1 s key p1 hc hp
  have h2 : RequestManager.fetch now2 (RequestManager.fetch now1 s key p1).1
      key p2 = ((RequestManager.fetch now1 s key p1).1, .joined p1) := by
    apply fetch_miss_joined
    · rw [h1]
      exact hc
    · rw [h1]
      exact mapGet_mapSet_self s.pendingRequests key p1
  refine ⟨by rw [h1], by rw [h2], ?_, ?_⟩
  · rw [h2, h1]
    simp [isStarted]
  · intro resolve
    rw [h2, h1]
    rfl

theorem fetch_coalesces_wave_witness :
    mapGet (RMState.mk [] []).dataCache "a" = none ∧
    mapGet (RMState.mk [] []).pendingRequests "a" = none ∧
    (RequestManager.fetch 5 (RMState.mk [] []) "a" 1).2 = .started 1 ∧
    (RequestManager.fetch 6 (RequestManager.fetch 5 (RMState.mk [] []) "a"
        1).1 "a" 2).2 = .joined 1 :=
  ⟨rfl, rfl,
   (fetch_coalesces_wave 5 6 (RMState.mk [] []) "a" 1 2 rfl rfl).1,
   (fetch_coalesces_wave 5 6 (RMState.mk [] []) "a" 1 2 rfl rfl).2.1⟩

/-- C2: the in-flight registry `pendingRequests` holds at most one entry per
key (absence of duplicate keys is preserved by every `fetch` step and every
`settle` step); when a `fetch` step starts the producer it registers the
promise under the key within that same atomic synchronous step, so the
registration is visible before control returns to any other task; a `fetch`
step never disturbs the registry entry of any other key; and the `settle`
step removes the key's entry, whether the producer succeeded or failed. -/
theorem pendingRequests_registry_invariant (now nowS maxSize duration : Nat)
    (s : RMState) (key otherKey : String) (p : Nat) (out : Outcome)
    (hnd : nodupKeys s.pendingRequests) :
    nodupKeys (RequestManager.fetch now s key p).1.pendingRequests ∧
    nodupKeys (settle nowS maxSize duration s key out).pendingRequests ∧
    ((RequestManager.fetch now s key p).2 = .started p →
      mapGet (RequestManager.fetch now s key p).1.pendingRequests key
        = some p) ∧
    (otherKey ≠ key →
      mapGet (RequestManager.fetch now s key p).1.pendingRequests otherKey
        = mapGet s.pendingRequests otherKey) ∧
    mapGet (settle nowS maxSize duration s key out).pendingRequests key
      = none := by
  have hsettle : (settle nowS maxSize duration s key out).pendingRequests
      = mapDelete s.pendingRequests key := by
    cases out <;> rfl
  rcases fetch_pending_char now s key p with hchar | hchar
  · refine ⟨by rw [hchar.1]; exact hnd, ?_, ?_, ?_, ?_⟩
    · rw [hsettle]
      exact nodupKeys_mapDelete _ _ hnd
    · intro hst
      exact absurd hst hchar.2
    · intro _
      rw [hchar.1]
    · rw [hsettle]
      exact mapGet_mapDelete_self _ _ hnd
  · refine ⟨by rw [hchar.1]; exact nodupKeys_mapSet _ _ _ hnd, ?_, ?_, ?_, ?_⟩
    · rw [hsettle]
      exact nodupKeys_mapDelete _ _ hnd
    · intro _
      rw [hchar.1]
      exact mapGet_mapSet_self _ _ _
    · intro hne
      rw [hchar.1]
      exact mapGet_mapSet_ne _ _ _ _ hne
    · rw [hsettle]
      exact mapGet_mapDelete_self _ _ hnd

theorem pendingRequests_registry_invariant_witness :
    nodupKeys (RMState.mk [] [("b", 7)]).pendingRequests ∧
    ((RequestManager.fetch 0 (RMState.mk [] [("b", 7)]) "a" 1).2
        = .started 1 →
      mapGet (RequestManager.fetch 0 (RMState.mk [] [("b", 7)]) "a"
          1).1.pendingRequests "a" = some 1) ∧
    mapGet (settle 3 1000 600000 (RMState.mk [] [("b", 7)]) "a"
        (.failure "boom")).pendingRequests "a" = none :=
  ⟨by decide,
   (pendingRequests_registry_invariant 0 3 1000 600000
      (RMState.mk [] [("b", 7)]) "a" "b" 1 (.failure "boom")
      (by decide)).2.2.1,
   (pendingRequests_registry_invariant 0 3 1000 600000
      (RMState.mk [] [("b", 7)]) "a" "b" 1 (.failure "boom")
      (by decide)).2.2.2.2⟩

/-- C3: when the producer for a key rejects, both coalesced callers of the
wave observe that same failure (they share the one promise `p1`); settling
the failure writes nothing to the data cache (which still has no entry for
the key), the pending entry for the key is gone after settlement, and the
next fetch for the key starts a fresh producer invocation. -/
theorem producer_failure_not_cached (now1 now2 nowS now3 maxSize duration :
    Nat) (s : RMState) (key : String) (p1 p2 p3 : Nat) (e : String)
    (hc : mapGet s.dataCache key = none)
    (hp : mapGet s.pendingRequests key = none)
    (hnd : nodupKeys s.pendingRequests) :
    (∀ resolve : Nat → Outcome, resolve p1 = .failure e →
      callerOutcome resolve (RequestManager.fetch now1 s key p1).2
          = .failure e ∧
      callerOutcome resolve
        (RequestManager.fetch now2 (RequestManager.fetch now1 s key p1).1
          key p2).2 = .failure e) ∧
    (settle nowS maxSize duration
        (RequestManager.fetch now2 (RequestManager.fetch now1 s key p1).1
          key p2).1 key (.failure e)).dataCache = s.dataCache ∧
    mapGet (settle nowS maxSize duration
        (RequestManager.fetch now2 (RequestManager.fetch now1 s key p1).1
          key p2).1 key (.failure e)).pendingRequests key = none ∧
    (RequestManager.fetch now3
        (settle nowS maxSize duration
          (RequestManager.fetch now2 (RequestManager.fetch now1 s key p1).1
            key p2).1 key (.failure e)) key p3).2 = .started p3 := by
  have h1 := fetch_miss_fresh now1 s key p1 hc hp
  have h2 : RequestManager.fetch now2 (RequestManager.fetch now1 s key p1).1
      key p2 = ((RequestManager.fetch now1 s key p1).1, .joined p1) := by
    apply fetch_miss_joined
    · rw [h1]
      exact hc
    · rw [h1]
      exact mapGet_mapSet_self s.pendingRequests key p1
  have hset : settle nowS maxSize duration
      (RequestManager.fetch now2 (RequestManager.fetch now1 s key p1).1 key
        p2).1 key (.failure e)
      = { dataCache := s.dataCache,
          pendingRequests :=
            mapDelete (mapSet s.pendingRequests key p1) key } := by
    rw [h2, h1]
    rfl
  have hpend : mapGet (mapDelete (mapSet s.pendingRequests key p1) key) key
      = none :=
    mapGet_mapDelete_self _ _ (nodupKeys_mapSet _ _ _ hnd)
  refine ⟨?_, ?_, ?_, ?_⟩
  · intro resolve hres
    rw [h2, h1]
    exact ⟨hres, hres⟩
  · rw [hset]
  · rw [hset]
    exact hpend
  · rw [hset]
    exact congrArg Prod.snd
      (fetch_miss_fresh now3
        { dataCache := s.dataCache,
          pendingRequests := mapDelete (mapSet s.pendingRequests key p1) key }
        key p3 hc hpend)

theorem producer_failure_not_cached_witness :
    mapGet (RMState.mk [] []).dataCache "a" = none ∧
    mapGet (RMState.mk [] []).pendingRequests "a" = none ∧
    callerOutcome (fun _ => .failure "err")
      (RequestManager.fetch 0 (RMState.mk [] []) "a" 1).2 = .failure "err" ∧
    (settle 2 1000 600000
        (RequestManager.fetch 1 (RequestManager.fetch 0 (RMState.mk [] [])
          "a" 1).1 "a" 2).1 "a" (.failure "err")).dataCache = [] ∧
    (RequestManager.fetch 3
        (settle 2 1000 600000
          (RequestManager.fetch 1 (RequestManager.fetch 0 (RMState.mk [] [])
            "a" 1).1 "a" 2).1 "a" (.failure "err")) "a" 3).2 = .started 3 :=
  ⟨rfl, rfl,
   ((producer_failure_not_cached 0 1 2 3 1000 600000 (RMState.mk [] []) "a"
      1 2 3 "err" rfl rfl (by decide)).1 (fun _ => .failure "err") rfl).1,
   (producer_failure_not_cached 0 1 2 3 1000 600000 (RMState.mk [] []) "a"
      1 2 3 "err" rfl rfl (by decide)).2.1,
   (producer_failure_not_cached 0 1 2 3 1000 600000 (RMState.mk [] []) "a"
      1 2 3 "err" rfl rfl (by decide)).2.2.2⟩

/-! Further helper lemmas for the cache-level claims. -/

theorem getLast?_append_single {α : Type} (l : List α) (a : α) :
    (l ++ [a]).getLast? = some a := by
  rw [List.getLast?_append_cons]
  rfl

theorem lastKey_append_single {α : Type} (m : JsMap α) (k : String) (v : α) :
    lastKey (m ++ [(k, v)]) = some k := by
  unfold lastKey
  rw [getLast?_append_single]
  rfl

theorem nodupKeys_setToDataCache (now maxSize duration : Nat)
    (cache : JsMap CacheEntry) (key : String) (v : JsValue)
    (hnd : nodupKeys cache) :
    nodupKeys (_setToDataCache now maxSize duration cache key v) := by
  unfold _setToDataCache
  by_cases hms : maxSize ≤ mapSize cache
  · simp only [hms, if_true]
    cases hfk : firstKey cache with
    | none => exact nodupKeys_mapSet _ _ _ hnd
    | some k0 => exact nodupKeys_mapSet _ _ _ (nodupKeys_mapDelete _ _ hnd)
  · simp only [hms, if_false]
    exact nodupKeys_mapSet _ _ _ hnd

theorem getFromDataCache_valid (now : Nat) (cache : JsMap CacheEntry)
    (key : String) (item : CacheEntry) (hc : mapGet cache key = some item)
    (hexp : ¬now > item.expiry) :
    _getFromDataCache now cache key
      = (some item.data, mapSet (mapDelete cache key) key item) := by
  unfold _getFromDataCache
  rw [hc]
  simp [hexp]

/-- C10: a cache hit changes only the hit entry's recency position: the
value `_getFromDataCache` returns and the entry it re-inserts carry exactly
the data and the expiry written by the last set for that key — a hit never
extends the time-to-live — and the entries of all other keys are unchanged. -/
theorem get_hit_frame (now : Nat) (cache : JsMap CacheEntry) (key : String)
    (item : CacheEntry) (hc : mapGet cache key = some item)
    (hexp : ¬now > item.expiry) :
    (_getFromDataCache now cache key).1 = some item.data ∧
    mapGet (_getFromDataCache now cache key).2 key = some item ∧
    ∀ k', k' ≠ key →
      mapGet (_getFromDataCache now cache key).2 k' = mapGet cache k' := by
  rw [getFromDataCache_valid now cache key item hc hexp]
  refine ⟨rfl, mapGet_mapSet_self _ _ _, ?_⟩
  intro k' hne
  rw [mapGet_mapSet_ne _ _ _ _ hne]
  exact mapGet_mapDelete_ne _ _ _ hne

theorem get_hit_frame_witness :
    mapGet [("a", CacheEntry.mk (.vNum 5) 30), ("b", CacheEntry.mk (.vNum 6)
      40)] "a" = some (CacheEntry.mk (.vNum 5) 30) ∧
    (_getFromDataCache 30
      [("a", CacheEntry.mk (.vNum 5) 30), ("b", CacheEntry.mk (.vNum 6) 40)]
      "a").1 = some (.vNum 5) ∧
    mapGet (_getFromDataCache 30
      [("a", CacheEntry.mk (.vNum 5) 30), ("b", CacheEntry.mk (.vNum 6) 40)]
      "a").2 "a" = some (CacheEntry.mk (.vNum 5) 30) ∧
    mapGet (_getFromDataCache 30
      [("a", CacheEntry.mk (.vNum 5) 30), ("b", CacheEntry.mk (.vNum 6) 40)]
      "a").2 "b" = some (CacheEntry.mk (.vNum 6) 40) :=
  ⟨by decide,
   (get_hit_frame 30 [("a", CacheEntry.mk (.vNum 5) 30),
      ("b", CacheEntry.mk (.vNum 6) 40)] "a" (CacheEntry.mk (.vNum 5) 30)
      (by decide) (by decide)).1,
   (get_hit_frame 30 [("a", CacheEntry.mk (.vNum 5) 30),
      ("b", CacheEntry.mk (.vNum 6) 40)] "a" (CacheEntry.mk (.vNum 5) 30)
      (by decide) (by decide)).2.1,
   (get_hit_frame 30 [("a", CacheEntry.mk (.vNum 5) 30),
      ("b", CacheEntry.mk (.vNum 6) 40)] "a" (CacheEntry.mk (.vNum 5) 30)
      (by decide) (by decide)).2.2 "b" (by decide)⟩

/-- C4 counterexample: `RequestManager._setToDataCache` violates the claimed
replace-in-place semantics. With capacity 2 and a full cache where "b"
already exists, setting "b" still evicts the other entry "a" (conjuncts 1
and 2), and below capacity a replaced key keeps its old recency position
instead of becoming most-recently-touched (conjunct 3: "b" stays first,
so `lastKey` is "c", not "b"). -/
theorem setToDataCache_replace_counterexample :
    mapGet (_setToDataCache 0 2 1000
      [("a", ⟨.vNum 1, 99⟩), ("b", ⟨.vNum 1, 99⟩)] "b" (.vNum 2)) "a"
      = none ∧
    _setToDataCache 0 2 1000
      [("a", ⟨.vNum 1, 99⟩), ("b", ⟨.vNum 1, 99⟩)] "b" (.vNum 2)
      = [("b", ⟨.vNum 2, 1000⟩)] ∧
    _setToDataCache 0 10 1000
      [("b", ⟨.vNum 1, 99⟩), ("c", ⟨.vNum 1, 99⟩)] "b" (.vNum 2)
      = [("b", ⟨.vNum 2, 1000⟩), ("c", ⟨.vNum 1, 99⟩)] ∧
    lastKey (_setToDataCache 0 10 1000
      [("b", ⟨.vNum 1, 99⟩), ("c", ⟨.vNum 1, 99⟩)] "b" (.vNum 2))
      = some "c" := by
  refine ⟨rfl, rfl, rfl, rfl⟩

/-- C4 (amended): the claimed replace-in-place semantics holds for `setCache`
of the standalone cache module, which deletes an existing key before
re-inserting: there the replacement consumes no new slot (size unchanged),
counts as a touch (the key ends in the most-recent position), stores the new
entry, and no other entry is evicted or changed even when the cache is at
capacity. `RequestManager._setToDataCache` does not satisfy this: a replaced
key keeps its old recency position, and at capacity the oldest entry is
evicted even though no new slot is needed. -/
theorem setCache_replace_touch (now maxSize duration : Nat)
    (cache : JsMap CacheEntry) (key : String) (v : JsValue)
    (hhas : mapHas cache key = true) (hnd : nodupKeys cache)
    (hcap : mapSize cache ≤ maxSize) :
    mapSize (setCache now maxSize duration cache key v) = mapSize cache ∧
    lastKey (setCache now maxSize duration cache key v) = some key ∧
    mapGet (setCache now maxSize duration cache key v) key
      = some ⟨v, now + duration⟩ ∧
    ∀ k', k' ≠ key →
      mapGet (setCache now maxSize duration cache key v) k'
        = mapGet cache k' := by
  have hsize := mapSize_mapDelete_of_has cache key hhas
  have hlt : ¬maxSize ≤ mapSize (mapDelete cache key) := by omega
  have habsent : mapGet (mapDelete cache key) key = none :=
    mapGet_mapDelete_self cache key hnd
  have hform : setCache now maxSize duration cache key v
      = mapDelete cache key ++ [(key, ⟨v, now + duration⟩)] := by
    unfold setCache
    simp only [hhas, if_true, hlt, if_false]
    exact mapSet_of_absent _ _ _ habsent
  refine ⟨?_, ?_, ?_, ?_⟩
  · rw [hform]
    simp only [mapSize, List.length_append, List.length_cons,
      List.length_nil]
    simp only [mapSize] at hsize
    omega
  · rw [hform]
    exact lastKey_append_single _ _ _
  · rw [hform, ← mapSet_of_absent _ _ _ habsent]
    exact mapGet_mapSet_self _ _ _
  · intro k' hne
    rw [hform, ← mapSet_of_absent _ _ _ habsent,
      mapGet_mapSet_ne _ _ _ _ hne]
    exact mapGet_mapDelete_ne _ _ _ hne

theorem setCache_replace_touch_witness :
    mapHas [("x", CacheEntry.mk (.vNum 1) 50), ("y", CacheEntry.mk (.vNum 2)
      60)] "x" = true ∧
    mapSize (setCache 7 2 100
      [("x", CacheEntry.mk (.vNum 1) 50), ("y", CacheEntry.mk (.vNum 2) 60)]
      "x" (.vNum 9)) = 2 ∧
    lastKey (setCache 7 2 100
      [("x", CacheEntry.mk (.vNum 1) 50), ("y", CacheEntry.mk (.vNum 2) 60)]
      "x" (.vNum 9)) = some "x" ∧
    mapGet (setCache 7 2 100
      [("x", CacheEntry.mk (.vNum 1) 50), ("y", CacheEntry.mk (.vNum 2) 60)]
      "x" (.vNum 9)) "y" = some (CacheEntry.mk (.vNum 2) 60) :=
  ⟨by decide,
   (setCache_replace_touch 7 2 100
      [("x", CacheEntry.mk (.vNum 1) 50), ("y", CacheEntry.mk (.vNum 2) 60)]
      "x" (.vNum 9) (by decide) (by decide) (by decide)).1,
   (setCache_replace_touch 7 2 100
      [("x", CacheEntry.mk (.vNum 1) 50), ("y", CacheEntry.mk (.vNum 2) 60)]
      "x" (.vNum 9) (by decide) (by decide) (by decide)).2.1,
   (setCache_replace_touch 7 2 100
      [("x", CacheEntry.mk (.vNum 1) 50), ("y", CacheEntry.mk (.vNum 2) 60)]
      "x" (.vNum 9) (by decide) (by decide) (by decide)).2.2.2 "y"
      (by decide)⟩

/-- C5 counterexample: a key stored at time 0 with ttl 1000 (so
`expiresAt = 1000`) is still a cache hit at exactly elapsed time 1000: the
source tests `Date.now() > item.expiry` strictly, so an entry with
`expiresAt = now` is returned as a hit, while the claim says elapsed time
`>= T` (so `expiresAt <= now`) is treated as absent. -/
theorem expiry_boundary_counterexample :
    (_getFromDataCache 1000 (_setToDataCache 0 1000 1000 [] "k" (.vNum 7))
      "k").1 = some (.vNum 7) := by
  rfl

/-- C5 (amended): a cache-get treats an entry whose `expiresAt < now` as
absent — a key inserted with ttl `T` is a cache miss once elapsed time
exceeds `T`, but at exactly elapsed time `T` it is still a hit — and when
`expiresAt >= now`, get returns the stored value and marks the entry
most-recently-used. -/
theorem get_expiry_roundtrip (t0 elapsed maxSize duration : Nat)
    (cache : JsMap CacheEntry) (key : String) (v : JsValue)
    (hnd : nodupKeys cache) :
    (duration < elapsed →
      (_getFromDataCache (t0 + elapsed)
        (_setToDataCache t0 maxSize duration cache key v) key).1 = none) ∧
    (elapsed ≤ duration →
      (_getFromDataCache (t0 + elapsed)
        (_setToDataCache t0 maxSize duration cache key v) key).1 = some v ∧
      lastKey (_getFromDataCache (t0 + elapsed)
        (_setToDataCache t0 maxSize duration cache key v) key).2
        = some key) := by
  have hset : mapGet (_setToDataCache t0 maxSize duration cache key v) key
      = some ⟨v, t0 + duration⟩ := by
    unfold _setToDataCache
    exact mapGet_mapSet_self _ _ _
  constructor
  · intro hlt
    unfold _getFromDataCache
    rw [hset]
    simp only [show t0 + elapsed > t0 + duration from by omega, if_true]
  · intro hle
    have hexp : ¬t0 + elapsed > t0 + duration := by omega
    have hvalid := getFromDataCache_valid (t0 + elapsed)
      (_setToDataCache t0 maxSize duration cache key v) key
      ⟨v, t0 + duration⟩ hset hexp
    rw [hvalid]
    refine ⟨rfl, ?_⟩
    have hnd' : nodupKeys (_setToDataCache t0 maxSize duration cache key v) :=
      nodupKeys_setToDataCache t0 maxSize duration cache key v hnd
    have habsent : mapGet
        (mapDelete (_setToDataCache t0 maxSize duration cache key v) key) key
        = none :=
      mapGet_mapDelete_self _ _ hnd'
    rw [mapSet_of_absent _ _ _ habsent]
    exact lastKey_append_single _ _ _

theorem get_expiry_roundtrip_witness :
    nodupKeys ([] : JsMap CacheEntry) ∧
    (_getFromDataCache 1001 (_setToDataCache 0 1000 1000 [] "k" (.vNum 7))
      "k").1 = none ∧
    (_getFromDataCache 999 (_setToDataCache 0 1000 1000 [] "k" (.vNum 7))
      "k").1 = some (.vNum 7) :=
  ⟨by decide,
   (get_expiry_roundtrip 0 1001 1000 1000 [] "k" (.vNum 7) (by decide)).1
     (by decide),
   ((get_expiry_roundtrip 0 999 1000 1000 [] "k" (.vNum 7) (by decide)).2
     (by decide)).1⟩

/-- C6: with capacity 2, inserting "a" then "b", then a hitting get of "a"
(which returns the stored value and refreshes recency), then inserting the
new key "c" evicts "b" and leaves exactly "a" and "c"; the same scenario at
the RequestManager level (fetch a, settle 1; fetch b, settle 2; fetch a is
a hit; fetch c, settle 3) leaves final cache contents a = 1 and c = 3. -/
theorem lru_touch_scenario :
    (let c2 := _setToDataCache 0 2 1000
        (_setToDataCache 0 2 1000 [] "a" (.vNum 1)) "b" (.vNum 2)
     let g := _getFromDataCache 0 c2 "a"
     let c4 := _setToDataCache 0 2 1000 g.2 "c" (.vNum 3)
     g.1 = some (.vNum 1) ∧
     keysOf c4 = ["a", "c"] ∧
     mapGet c4 "a" = some ⟨.vNum 1, 1000⟩ ∧
     mapGet c4 "b" = none ∧
     mapGet c4 "c" = some ⟨.vNum 3, 1000⟩) ∧
    (let s1 := settle 0 2 1000
        (RequestManager.fetch 0 (RMState.mk [] []) "a" 1).1 "a"
        (.success (.vNum 1))
     let s2 := settle 0 2 1000 (RequestManager.fetch 0 s1 "b" 2).1 "b"
        (.success (.vNum 2))
     let f3 := RequestManager.fetch 0 s2 "a" 3
     let s4 := settle 0 2 1000 (RequestManager.fetch 0 f3.1 "c" 4).1 "c"
        (.success (.vNum 3))
     f3.2 = .hit (.vNum 1) ∧
     s4.dataCache = [("a", ⟨.vNum 1, 1000⟩), ("c", ⟨.vNum 3, 1000⟩)] ∧
     s4.pendingRequests = []) := by
  exact ⟨⟨rfl, rfl, rfl, rfl, rfl⟩, ⟨rfl, rfl, rfl⟩⟩

/-- C8 counterexample: the unconditional miss-then-hit claim fails when the
producer resolves a falsy value. Starting from the empty state, fetch "a"
starts producer promise 1; the producer resolves 0 (falsy) and the settle
step does store it in the cache; yet a second fetch before expiry does not
return the cached value with zero producer calls — it invokes the producer
again (outcome `started 2`), because the hit check `if (cached)` tests
truthiness. -/
theorem miss_then_hit_falsy_counterexample :
    (RequestManager.fetch 0 (RMState.mk [] []) "a" 1).2 = .started 1 ∧
    mapGet (settle 0 1000 600000
        (RequestManager.fetch 0 (RMState.mk [] []) "a" 1).1 "a"
        (.success (.vNum 0))).dataCache "a" = some ⟨.vNum 0, 600000⟩ ∧
    (RequestManager.fetch 1 (settle 0 1000 600000
        (RequestManager.fetch 0 (RMState.mk [] []) "a" 1).1 "a"
        (.success (.vNum 0))) "a" 2).2 = .started 2 := by
  exact ⟨rfl, rfl, rfl⟩

/-- C8 (amended): starting from a state with no cached entry and nothing in
flight for the key, fetch invokes the producer exactly once (outcome
`started p1`); settling the success stores the resolved value with expiry
`settlement-time + duration`; and provided the resolved value is truthy, a
later fetch before expiry returns the cached value as an immediate hit —
zero further producer invocations — and leaves the in-flight registry
untouched. (For falsy resolved values the second fetch re-invokes the
producer; see the C9 theorem.) -/
theorem miss_then_hit (now1 nowS now2 maxSize duration : Nat) (s : RMState)
    (key : String) (p1 p2 : Nat) (v : JsValue)
    (hc : mapGet s.dataCache key = none)
    (hp : mapGet s.pendingRequests key = none)
    (hv : truthy v = true)
    (ht : now2 ≤ nowS + duration) :
    (RequestManager.fetch now1 s key p1).2 = .started p1 ∧
    mapGet (settle nowS maxSize duration
        (RequestManager.fetch now1 s key p1).1 key
        (.success v)).dataCache key = some ⟨v, nowS + duration⟩ ∧
    (RequestManager.fetch now2
        (settle nowS maxSize duration
          (RequestManager.fetch now1 s key p1).1 key (.success v)) key
        p2).2 = .hit v ∧
    (RequestManager.fetch now2
        (settle nowS maxSize duration
          (RequestManager.fetch now1 s key p1).1 key (.success v)) key
        p2).1.pendingRequests
      = (settle nowS maxSize duration
          (RequestManager.fetch now1 s key p1).1 key
          (.success v)).pendingRequests := by
  have h1 := fetch_miss_fresh now1 s key p1 hc hp
  have hstore : mapGet (settle nowS maxSize duration
      (RequestManager.fetch now1 s key p1).1 key
      (.success v)).dataCache key = some ⟨v, nowS + duration⟩ := by
    rw [h1]
    show mapGet (_setToDataCache nowS maxSize duration s.dataCache key v) key
      = some ⟨v, nowS + duration⟩
    unfold _setToDataCache
    exact mapGet_mapSet_self _ _ _
  have hexp : ¬now2 > (CacheEntry.mk v (nowS + duration)).expiry := by
    simpa using ht
  have h3 := fetch_hit now2
    (settle nowS maxSize duration (RequestManager.fetch now1 s key p1).1 key
      (.success v)) key p2 ⟨v, nowS + duration⟩ hstore hexp hv
  refine ⟨by rw [h1], hstore, by rw [h3], by rw [h3]⟩

theorem miss_then_hit_witness :
    truthy (.vObj 0) = true ∧
    (RequestManager.fetch 0 (RMState.mk [] []) "a" 1).2 = .started 1 ∧
    mapGet (settle 5 1000 600000
        (RequestManager.fetch 0 (RMState.mk [] []) "a" 1).1 "a"
        (.success (.vObj 0))).dataCache "a" = some ⟨.vObj 0, 600005⟩ ∧
    (RequestManager.fetch 9
        (settle 5 1000 600000
          (RequestManager.fetch 0 (RMState.mk [] []) "a" 1).1 "a"
          (.success (.vObj 0))) "a" 2).2 = .hit (.vObj 0) :=
  ⟨rfl,
   (miss_then_hit 0 5 9 1000 600000 (RMState.mk [] []) "a" 1 2 (.vObj 0)
      rfl rfl rfl (by omega)).1,
   (miss_then_hit 0 5 9 1000 600000 (RMState.mk [] []) "a" 1 2 (.vObj 0)
      rfl rfl rfl (by omega)).2.1,
   (miss_then_hit 0 5 9 1000 600000 (RMState.mk [] []) "a" 1 2 (.vObj 0)
      rfl rfl rfl (by omega)).2.2.1⟩

/-- C9: a falsy value stored in the cache never takes the cache-hit fast
path. If the cached data for a key is falsy (null, false, 0, empty string),
`RequestManager.fetch` bypasses the fast return — both the `if (cached)`
check and the `null`-for-absence convention of the lookup test truthiness —
and re-enters the miss/coalescing path: it joins the pending promise when
one exists and otherwise invokes the producer afresh. Conversely a fetch
returns an immediate hit only for a truthy stored value. -/
theorem falsy_cached_value_bypasses_hit (now : Nat) (s : RMState)
    (key : String) (p : Nat) (e : CacheEntry)
    (hc : mapGet s.dataCache key = some e)
    (hf : truthy e.data = false) :
    (∀ w, (RequestManager.fetch now s key p).2 ≠ .hit w) ∧
    ((RequestManager.fetch now s key p).2 =
      match mapGet s.pendingRequests key with
      | some pid => .joined pid
      | none => .started p) ∧
    (∀ (s' : RMState) (w : JsValue),
      (RequestManager.fetch now s' key p).2 = .hit w → truthy w = true) := by
  have hmiss : truthy (jsOfOption (_getFromDataCache now s.dataCache
      key).1) = false := by
    unfold _getFromDataCache
    rw [hc]
    by_cases hexp : now > e.expiry
    · simp [hexp, jsOfOption, truthy]
    · simp [hexp, jsOfOption, hf]
  refine ⟨?_, ?_, ?_⟩
  · intro w
    unfold RequestManager.fetch
    simp only [hmiss, Bool.false_eq_true, if_false]
    cases hg : mapGet s.pendingRequests key <;> simp [hg]
  · unfold RequestManager.fetch
    simp only [hmiss, Bool.false_eq_true, if_false]
    cases hg : mapGet s.pendingRequests key <;> simp [hg]
  · intro s' w hw
    unfold RequestManager.fetch at hw
    by_cases htr : truthy (jsOfOption (_getFromDataCache now s'.dataCache
        key).1) = true
    · rw [if_pos htr] at hw
      have hww : jsOfOption (_getFromDataCache now s'.dataCache key).1 = w :=
        by simpa using hw
      rw [← hww]
      exact htr
    · rw [if_neg htr] at hw
      cases hg : mapGet s'.pendingRequests key with
      | none =>
          rw [hg] at hw
          exact absurd hw (by simp)
      | some pid =>
          rw [hg] at hw
          exact absurd hw (by simp)

theorem falsy_cached_value_bypasses_hit_witness :
    mapGet (RMState.mk [("a", ⟨.vNum 0, 100⟩)] []).dataCache "a"
      = some ⟨.vNum 0, 100⟩ ∧
    truthy (JsValue.vNum 0) = false ∧
    (RequestManager.fetch 0 (RMState.mk [("a", ⟨.vNum 0, 100⟩)] []) "a"
      1).2 = .started 1 :=
  ⟨rfl, rfl, by
    have h := (falsy_cached_value_bypasses_hit 0
      (RMState.mk [("a", ⟨.vNum 0, 100⟩)] []) "a" 1 ⟨.vNum 0, 100⟩ rfl
      rfl).2.1
    simpa using h⟩

/-! Capacity lemmas for C7. -/

/-- The suffix of the last `n` elements of a list. -/
def lastN {α : Type} (n : Nat) (l : List α) : List α := l.drop (l.length - n)

theorem lastN_of_le {α : Type} (n : Nat) (l : List α) (h : l.length ≤ n) :
    lastN n l = l := by
  unfold lastN
  rw [show l.length - n = 0 from by omega]
  rfl

theorem lastN_cons_of_le {α : Type} (n : Nat) (a : α) (l : List α)
    (h : n ≤ l.length) : lastN n (a :: l) = lastN n l := by
  unfold lastN
  simp only [List.length_cons]
  rw [show l.length + 1 - n = (l.length - n) + 1 from by omega]
  rfl

theorem setToDataCache_full_cons (now maxSize duration : Nat) (k0 : String)
    (v0 : CacheEntry) (rest : JsMap CacheEntry) (key : String) (v : JsValue)
    (hms : maxSize ≤ mapSize ((k0, v0) :: rest)) :
    _setToDataCache now maxSize duration ((k0, v0) :: rest) key v
      = mapSet rest key ⟨v, now + duration⟩ := by
  unfold _setToDataCache
  simp only [hms, if_true]
  show mapSet (mapDelete ((k0, v0) :: rest) k0) key ⟨v, now + duration⟩ = _
  rw [mapDelete_cons_head]

theorem setToDataCache_below (now maxSize duration : Nat)
    (cache : JsMap CacheEntry) (key : String) (v : JsValue)
    (hms : ¬maxSize ≤ mapSize cache) :
    _setToDataCache now maxSize duration cache key v
      = mapSet cache key ⟨v, now + duration⟩ := by
  unfold _setToDataCache
  simp only [hms, if_false]

theorem mapSize_setToDataCache_le (now maxSize duration : Nat)
    (cache : JsMap CacheEntry) (key : String) (v : JsValue)
    (hcap : 1 ≤ maxSize) (hsize : mapSize cache ≤ maxSize) :
    mapSize (_setToDataCache now maxSize duration cache key v) ≤ maxSize := by
  by_cases hms : maxSize ≤ mapSize cache
  · cases cache with
    | nil =>
        simp only [mapSize, List.length_nil] at hms
        omega
    | cons p rest =>
        obtain ⟨k0, v0⟩ := p
        rw [setToDataCache_full_cons now maxSize duration k0 v0 rest key v
          hms]
        have hle := mapSize_mapSet_le rest key ⟨v, now + duration⟩
        simp only [mapSize, List.length_cons] at hsize hle ⊢
        omega
  · rw [setToDataCache_below now maxSize duration cache key v hms]
    have hle := mapSize_mapSet_le cache key ⟨v, now + duration⟩
    omega

theorem insertAll_keys_general (now maxSize duration : Nat)
    (hcap : 1 ≤ maxSize) :
    ∀ (ks : List String) (cache : JsMap CacheEntry),
      (keysOf cache ++ ks).Nodup →
      mapSize cache ≤ maxSize →
      keysOf (insertAll now maxSize duration ks cache)
        = lastN maxSize (keysOf cache ++ ks) := by
  intro ks
  induction ks with
  | nil =>
      intro cache hnd hsize
      simp only [insertAll, List.foldl_nil, List.append_nil]
      rw [lastN_of_le]
      simp only [keysOf, List.length_map]
      simpa [mapSize] using hsize
  | cons k ks ih =>
      intro cache hnd hsize
      have hknotin : k ∉ keysOf cache := by
        rcases List.nodup_append.mp hnd with ⟨_, _, hdisj⟩
        intro hmem
        exact hdisj hmem (List.mem_cons_self k ks)
      have hkeyget : mapGet cache k = none :=
        mapGet_eq_none_of_not_mem cache k hknotin
      have hstep : insertAll now maxSize duration (k :: ks) cache
          = insertAll now maxSize duration ks
              (_setToDataCache now maxSize duration cache k (.vNum 0)) := by
        simp [insertAll]
      by_cases hms : maxSize ≤ mapSize cache
      · -- at capacity: the oldest (head) entry is evicted, key appended
        cases cache with
        | nil =>
            simp [mapSize] at hms
            omega
        | cons p rest =>
            obtain ⟨k0, v0⟩ := p
            have hkrest : mapGet rest k = none := by
              apply mapGet_eq_none_of_not_mem
              intro hmem
              exact hknotin (by simp [keysOf]; right; simpa [keysOf] using
                hmem)
            have hset : _setToDataCache now maxSize duration
                ((k0, v0) :: rest) k (.vNum 0)
                = rest ++ [(k, ⟨.vNum 0, now + duration⟩)] := by
              rw [setToDataCache_full_cons now maxSize duration k0 v0 rest k
                (.vNum 0) hms]
              exact mapSet_of_absent _ _ _ hkrest
            have hnd' : (keysOf (rest ++ [(k, ⟨.vNum 0, now + duration⟩)])
                ++ ks).Nodup := by
              have : keysOf (rest ++ [(k, ⟨.vNum 0, now + duration⟩)]) ++ ks
                  = keysOf rest ++ (k :: ks) := by
                simp [keysOf]
              rw [this]
              have hnd2 : (k0 :: (keysOf rest ++ (k :: ks))).Nodup := by
                simpa [keysOf] using hnd
              exact (List.nodup_cons.mp hnd2).2
            have hsize' : mapSize (rest ++ [(k, ⟨.vNum 0, now + duration⟩)])
                ≤ maxSize := by
              simp only [mapSize, List.length_append, List.length_cons,
                List.length_nil] at hsize ⊢
              omega
            rw [hstep, hset, ih _ hnd' hsize']
            have hlen : maxSize ≤ (keysOf rest ++ (k :: ks)).length := by
              simp only [List.length_append, List.length_cons, keysOf,
                List.length_map]
              simp only [mapSize, List.length_cons] at hms
              omega
            have heq1 : keysOf (rest ++ [(k, ⟨.vNum 0, now + duration⟩)])
                ++ ks = keysOf rest ++ (k :: ks) := by
              simp [keysOf]
            have heq2 : keysOf ((k0, v0) :: rest) ++ (k :: ks)
                = k0 :: (keysOf rest ++ (k :: ks)) := by
              simp [keysOf]
            rw [heq1, heq2, lastN_cons_of_le maxSize k0 _ hlen]
      · -- below capacity: the key is appended, nothing evicted
        have hset : _setToDataCache now maxSize duration cache k (.vNum 0)
            = cache ++ [(k, ⟨.vNum 0, now + duration⟩)] := by
          rw [setToDataCache_below now maxSize duration cache k (.vNum 0)
            hms]
          exact mapSet_of_absent _ _ _ hkeyget
        have heq : keysOf (cache ++ [(k, ⟨.vNum 0, now + duration⟩)]) ++ ks
            = keysOf cache ++ (k :: ks) := by
          simp [keysOf]
        have hnd' : (keysOf (cache ++ [(k, ⟨.vNum 0, now + duration⟩)])
            ++ ks).Nodup := by
          rw [heq]
          exact hnd
        have hsize' : mapSize (cache ++ [(k, ⟨.vNum 0, now + duration⟩)])
            ≤ maxSize := by
          simp only [mapSize, List.length_append, List.length_cons,
            List.length_nil] at hms ⊢
          omega
        rw [hstep, hset, ih _ hnd' hsize', heq]

/-- C7: sequentially inserting `N > capacity` distinct keys into an empty
cache with no reads in between leaves exactly `capacity` keys, namely the
`capacity` most-recently inserted ones (the final suffix of the insertion
order); moreover a single `_setToDataCache` never grows a within-capacity
cache beyond capacity, and the default capacity `MAX_CACHE_SIZE` is 1000. -/
theorem cache_capacity_bound (now maxSize duration : Nat) (ks : List String)
    (hcap : 1 ≤ maxSize) (hnd : ks.Nodup) (hN : maxSize ≤ ks.length) :
    keysOf (insertAll now maxSize duration ks [])
      = ks.drop (ks.length - maxSize) ∧
    mapSize (insertAll now maxSize duration ks []) = maxSize ∧
    (∀ (cache : JsMap CacheEntry) (key : String) (v : JsValue),
      mapSize cache ≤ maxSize →
      mapSize (_setToDataCache now maxSize duration cache key v) ≤ maxSize) ∧
    MAX_CACHE_SIZE = 1000 := by
  have hkeys := insertAll_keys_general now maxSize duration hcap ks []
    (by simpa [keysOf] using hnd) (by simp [mapSize])
  have hkeys' : keysOf (insertAll now maxSize duration ks [])
      = ks.drop (ks.length - maxSize) := by
    rw [hkeys]
    rfl
  refine ⟨hkeys', ?_, ?_, rfl⟩
  · have hlen : (keysOf (insertAll now maxSize duration ks [])).length
        = (ks.drop (ks.length - maxSize)).length := by rw [hkeys']
    simp only [keysOf, List.length_map, List.length_drop] at hlen
    simp only [mapSize]
    omega
  · intro cache key v hsize
    exact mapSize_setToDataCache_le now maxSize duration cache key v hcap
      hsize

theorem cache_capacity_bound_witness :
    (1 ≤ 2 ∧ (["a", "b", "c"] : List String).Nodup ∧
      2 ≤ (["a", "b", "c"] : List String).length) ∧
    keysOf (insertAll 0 2 1000 ["a", "b", "c"] []) = ["b", "c"] ∧
    mapSize (insertAll 0 2 1000 ["a", "b", "c"] []) = 2 :=
  ⟨⟨by decide, by decide, by decide⟩,
   (cache_capacity_bound 0 2 1000 ["a", "b", "c"] (by decide) (by decide)
      (by decide)).1,
   (cache_capacity_bound 0 2 1000 ["a", "b", "c"] (by decide) (by decide)
      (by decide)).2.1⟩
